import Mathlib

/-!
Verification of the azac configuration tool's core logic against its
specification.  The Rust sources are shallowly embedded: strings are
`List Char`, pure string functions are translated directly, and external
collaborators (the az CLI, the filesystem, serde parsers for JSON/YAML/TOML,
interactive prompts, progress bars) are modelled as oracle parameters.
-/

namespace Azac

/-! ## String utilities (models of the Rust `str` methods used by the code) -/

abbrev Str := List Char

/-- Model of Rust `char::is_whitespace` restricted to the ASCII whitespace
the code ever meets. -/
def isWs (c : Char) : Bool := c = ' ' || c = '\t' || c = '\n' || c = '\r'

def trimLeftWs (s : Str) : Str := s.dropWhile isWs

def trimRightWs (s : Str) : Str := (s.reverse.dropWhile isWs).reverse

/-- Model of Rust `str::trim`. -/
def trimWs (s : Str) : Str := trimRightWs (trimLeftWs s)

/-- Model of Rust `char::to_ascii_lowercase`. -/
def lowerAscii (c : Char) : Char :=
  if 'A' ≤ c ∧ c ≤ 'Z' then Char.ofNat (c.toNat + 32) else c

/-- Model of Rust `str::to_ascii_lowercase`. -/
def toLowerAscii (s : Str) : Str := s.map lowerAscii

/-- Does the string contain the character? (Rust `str::contains(char)`). -/
def hasCh (c : Char) : Str → Bool
  | [] => false
  | d :: s => d = c || hasCh c s

/-- Model of Rust `str::starts_with(pat)`: `begWith pat s` holds when `s`
starts with `pat`. -/
def begWith : Str → Str → Bool
  | [], _ => true
  | _ :: _, [] => false
  | p :: ps, c :: cs => p = c && begWith ps cs

/-- Model of Rust `str::ends_with(pat)`. -/
def endWith (pat s : Str) : Bool := begWith pat.reverse s.reverse

/-- Model of Rust `str::strip_prefix`: remove a leading `pat` when present. -/
def dropPre? : Str → Str → Option Str
  | [], s => some s
  | _ :: _, [] => none
  | p :: ps, c :: cs => if p = c then dropPre? ps cs else none

/-- Remove a trailing `pat` when present. -/
def dropSuf? (pat s : Str) : Option Str :=
  (dropPre? pat.reverse s.reverse).map List.reverse

/-- Model of Rust `str::split(char)`: always returns at least one part. -/
def splitCh (c : Char) : Str → List Str
  | [] => [[]]
  | d :: s =>
    if d = c then [] :: splitCh c s
    else
      match splitCh c s with
      | [] => [[d]]
      | p :: ps => (d :: p) :: ps

/-- Model of Rust `str::split_once(char)`: split at the first occurrence. -/
def splitOnceCh (c : Char) : Str → Option (Str × Str)
  | [] => none
  | d :: s =>
    if d = c then some ([], s)
    else (splitOnceCh c s).map (fun p => (d :: p.1, p.2))

/-- First occurrence of a (non-empty) substring: the part before it and the
part after it.  Models `str::splitn(2, pat)` yielding a second component. -/
def splitOnceSub (pat : Str) : Str → Option (Str × Str)
  | [] => none
  | c :: s =>
    if begWith pat (c :: s) then some ([], (c :: s).drop pat.length)
    else (splitOnceSub pat s).map (fun p => (c :: p.1, p.2))

/-- Model of Rust `str::trim_end_matches(char)`. -/
def trimEndCh (c : Char) (s : Str) : Str :=
  (s.reverse.dropWhile (fun d => d = c)).reverse

/-- Model of Rust `str::trim_start_matches(char)`. -/
def trimBegCh (c : Char) (s : Str) : Str := s.dropWhile (fun d => d = c)

/-- Model of Rust `str::trim_matches(char)`. -/
def trimBothCh (c : Char) (s : Str) : Str := trimEndCh c (trimBegCh c s)

/-! ## Context store (src/context/model.rs, src/context/service.rs)

The persisted `ContextStore` holds a `HashMap<String, Context>`; the map is
modelled as an association list with unique-key insert/remove, which has the
same `contains_key` / `get` / `insert` / `remove` observable behaviour. -/

structure Context where
  aliasName : Str
  sub : Str
  name : Str
  base : Str
  separator : Str
  label : Str
deriving DecidableEq, Repr

abbrev CtxMap := List (Str × Context)

def alContains (k : Str) (l : CtxMap) : Bool := l.any (fun p => p.1 = k)

def alGet (k : Str) : CtxMap → Option Context
  | [] => none
  | p :: l => if p.1 = k then some p.2 else alGet k l

/-- `HashMap::remove` (also used to model the `remove` that returns the old
value, via `alGet` first). -/
def alRemove (k : Str) (l : CtxMap) : CtxMap := l.filter (fun p => ¬ p.1 = k)

/-- `HashMap::insert`: the new binding replaces any old binding of the key. -/
def alInsert (k : Str) (v : Context) (l : CtxMap) : CtxMap :=
  (k, v) :: alRemove k l

structure ContextStore where
  current : Option Str
  contexts : CtxMap
deriving DecidableEq, Repr

inductive ContextError where
  | missingConfigDir
  | duplicateAlias (a : Str)
  | unknownAlias (a : Str)
  | currentContextMissing (a : Str)
deriving DecidableEq, Repr

/-- `service::save`: insert a fresh context, rejecting duplicate aliases. -/
def ctx_save (c : Context) (s : ContextStore) : Except ContextError ContextStore :=
  if alContains c.aliasName s.contexts then .error (.duplicateAlias c.aliasName)
  else .ok { s with contexts := alInsert c.aliasName c s.contexts }

/-- `service::set`: select an existing alias as current. -/
def ctx_set (a : Str) (s : ContextStore) : Except ContextError ContextStore :=
  if ¬ alContains a s.contexts then .error (.unknownAlias a)
  else .ok { s with current := some a }

/-- `service::update`: replace the context stored under `oa` by `c` (whose
alias may differ), redirecting `current` when `oa` was current. -/
def ctx_update (oa : Str) (c : Context) (s : ContextStore) :
    Except ContextError ContextStore :=
  if ¬ alContains oa s.contexts then .error (.unknownAlias oa)
  else if oa ≠ c.aliasName ∧ alContains c.aliasName s.contexts then
    .error (.duplicateAlias c.aliasName)
  else
    let contexts := alInsert c.aliasName c (alRemove oa s.contexts)
    let wasCurrent := s.current = some oa
    .ok { current := if wasCurrent then some c.aliasName else s.current,
          contexts := contexts }

/-- `service::rename`. -/
def ctx_rename (oa na : Str) (s : ContextStore) : Except ContextError ContextStore :=
  if oa = na then .ok s
  else
    match alGet oa s.contexts with
    | none => .error (.unknownAlias oa)
    | some c =>
      let rest := alRemove oa s.contexts
      if alContains na rest then .error (.duplicateAlias na)
      else
        let s' : ContextStore :=
          { s with contexts := alInsert na { c with aliasName := na } rest }
        .ok (if s.current = some oa then { s' with current := some na } else s')

/-- `service::clone`. -/
def ctx_clone (src na : Str) (s : ContextStore) : Except ContextError ContextStore :=
  match alGet src s.contexts with
  | none => .error (.unknownAlias src)
  | some c =>
    if alContains na s.contexts then .error (.duplicateAlias na)
    else .ok { s with contexts := alInsert na { c with aliasName := na } s.contexts }

/-- `service::delete`: remove an alias, clearing `current` when it was the
deleted alias. -/
def ctx_delete (a : Str) (s : ContextStore) : Except ContextError ContextStore :=
  if ¬ alContains a s.contexts then .error (.unknownAlias a)
  else
    .ok { current := if s.current = some a then none else s.current,
          contexts := alRemove a s.contexts }

/-- The implicit invariant: a selected `current` alias is a key of the map. -/
def storeInv (s : ContextStore) : Bool :=
  match s.current with
  | none => true
  | some a => alContains a s.contexts

/-! ## Active context and key namespace mapper (src/commands.rs, kv module) -/

structure ActiveKvContext where
  config_name : Str
  endpoint : Str
  separator : Str
  app_name : Option Str
  label : Option Str
  keyvault : Option Str
deriving DecidableEq, Repr

/-- `kv::prefix_key`. -/
def prefix_key (ctx : ActiveKvContext) (key : Str) : Str :=
  match ctx.app_name with
  | some app => app ++ ctx.separator ++ key
  | none => key

/-- `kv::strip_prefix` (named with a `_key` suffix here): remove a leading
`app + separator` when present, else return the key unchanged. -/
def strip_prefix_key (ctx : ActiveKvContext) (key : Str) : Str :=
  match ctx.app_name with
  | some app =>
    match dropPre? (app ++ ctx.separator) key with
    | some rest => rest
    | none => key
  | none => key

/-! ## Secret reference codec

`app::parse_keyvault_reference` (src/commands.rs lines 533-598) understands
the full inline `@Microsoft.KeyVault(...)` syntax with semicolon-delimited,
case-insensitive named fields.  `kv::parse_keyvault_reference` (lines
1527-1541) only recognizes the exact `@Microsoft.KeyVault(SecretUri=...)`
spelling.  Both are embedded. -/

def kvRefPre : Str := "@Microsoft.KeyVault(".toList

structure FieldAcc where
  secretUri : Option Str
  vaultName : Option Str
  secretName : Option Str
  secretVersion : Option Str
deriving DecidableEq, Repr

/-- One iteration of the field loop in `app::parse_keyvault_reference`. -/
def fieldStep (acc : FieldAcc) (part : Str) : FieldAcc :=
  let p := trimWs part
  if p = [] then acc
  else
    match splitOnceCh '=' p with
    | none => acc
    | some kv =>
      let key := toLowerAscii (trimWs kv.1)
      let val := trimWs kv.2
      if val = [] then acc
      else if key = "secreturi".toList then { acc with secretUri := some val }
      else if key = "vaultname".toList then { acc with vaultName := some val }
      else if key = "secretname".toList then { acc with secretName := some val }
      else if key = "secretversion".toList then { acc with secretVersion := some val }
      else acc

/-- `app::parse_keyvault_reference`. -/
def app_parse_keyvault_reference (value : Str) : Option Str :=
  match dropPre? kvRefPre value with
  | none => none
  | some rest =>
    match dropSuf? [')'] rest with
    | none => none
    | some inner =>
      let t := trimWs inner
      if t = [] then none
      else
        let acc := (splitCh ';' t).foldl fieldStep ⟨none, none, none, none⟩
        match acc.secretUri with
        | some uri => some uri
        | none =>
          match acc.vaultName, acc.secretName with
          | some vault, some secret =>
            let base :=
              if begWith "http://".toList vault || begWith "https://".toList vault then
                trimEndCh '/' vault
              else
                "https://".toList ++ trimEndCh '/' vault ++ ".vault.azure.net".toList
            let uri := base ++ "/secrets/".toList ++ trimBothCh '/' secret
            match acc.secretVersion.filter (fun v => ¬ trimWs v = []) with
            | some ver => some (uri ++ '/' :: trimBothCh '/' ver)
            | none => some uri
          | _, _ => none

/-- `app::vault_name_from_uri`. -/
def vault_name_from_uri (uri : Str) : Option Str :=
  match splitOnceSub "://".toList uri with
  | none => none
  | some p =>
    let host := trimWs ((splitCh '/' p.2).headD [])
    if host = [] then none
    else
      let name := (splitCh '.' host).headD host
      if name = [] then none else some name

/-- JSON values, used to model what serde_json hands back to the code.  The
string-to-JSON parse itself is the external serde_json library and is kept
as an oracle parameter. -/
inductive Json where
  | null
  | bool (b : Bool)
  | num (n : Int)
  | str (s : Str)
  | arr (xs : List Json)
  | obj (fields : List (Str × Json))

def jGet (k : Str) : List (Str × Json) → Option Json
  | [] => none
  | p :: l => if p.1 = k then some p.2 else jGet k l

/-- `serde_json::Value::get` (non-objects have no fields). -/
def Json.getField (j : Json) (k : Str) : Option Json :=
  match j with
  | .obj fields => jGet k fields
  | _ => none

def Json.asStr : Json → Option Str
  | .str s => some s
  | _ => none

/-- `parse_keyvault_json` (identical in the `app` and `kv` modules), over a
JSON-parse oracle standing for `serde_json::from_str`. -/
def parse_keyvault_json (jparse : Str → Option Json) (value : Str) : Option Str :=
  match jparse value with
  | none => none
  | some j =>
    match (j.getField "uri".toList).bind Json.asStr with
    | some s => some s
    | none => (j.getField "secretUri".toList).bind Json.asStr

/-- Substring containment (Rust `str::contains(&str)`, non-empty pattern). -/
def hasSub (pat s : Str) : Bool := (splitOnceSub pat s).isSome

/-- `kv::parse_keyvault_reference`: only the exact
`@Microsoft.KeyVault(SecretUri=...)` spelling. -/
def kv_parse_keyvault_reference (value : Str) : Option Str :=
  match dropPre? "@Microsoft.KeyVault(SecretUri=".toList value with
  | none => none
  | some rest =>
    match dropSuf? [')'] rest with
    | none => none
    | some inner => if inner = [] then none else some inner

structure KeyValue where
  key : Str
  value : Option Str
  content_type : Option Str
deriving DecidableEq, Repr

/-- `kv::keyvault_uri_from_entry`: value-based decodes first (inline form,
then JSON payload), then the content-type-gated JSON fallback. -/
def keyvault_uri_from_entry (jparse : Str → Option Json) (e : KeyValue) : Option Str :=
  let ctFallback :=
    if (e.content_type.map (fun ct => hasSub "keyvaultref".toList ct)).getD false then
      match e.value with
      | some v => parse_keyvault_json jparse v
      | none => none
    else none
  match e.value with
  | some v =>
    match kv_parse_keyvault_reference v with
    | some uri => some uri
    | none =>
      match parse_keyvault_json jparse v with
      | some uri => some uri
      | none => ctFallback
  | none => ctFallback

/-- `kv::resolve_value` (the spinner argument is pure UI and is dropped);
`fetch` stands for `fetch_secret_value`, one az CLI round trip. -/
def resolve_value (jparse : Str → Option Json) (fetch : Str → Except Str Str)
    (e : KeyValue) (fetch_secret : Bool) : Str × Bool :=
  match keyvault_uri_from_entry jparse e with
  | some uri =>
    if fetch_secret then
      match fetch uri with
      | .ok secret => (secret, true)
      | .error _ => (uri, true)
    else (uri, true)
  | none =>
    match e.value with
    | none => ([], false)
    | some v => (v, false)

/-- `kv::parse_secret_uri`: vault name (first host label) and secret name
from a canonical secret URI. -/
def parse_secret_uri (uri : Str) : Option (Str × Str) :=
  match splitOnceSub "://".toList uri with
  | none => none
  | some p =>
    match splitCh '/' p.2 with
    | [] => none
    | host0 :: parts =>
      let host := trimWs host0
      if host = [] then none
      else
        match parts with
        | [] => none
        | first :: parts2 =>
          if ¬ first = "secrets".toList then none
          else
            match parts2 with
            | [] => none
            | nm :: _ =>
              let name := trimWs nm
              if name = [] then none
              else some ((splitCh '.' host).headD [], name)

/-- `kv::ensure_vault_base`: bare vault names become
`https://{name}.vault.azure.net`; addresses already carrying a scheme are
trimmed of trailing slashes. -/
def ensure_vault_base (keyvault : Option Str) : Option Str :=
  match keyvault with
  | none => none
  | some kv0 =>
    let vault := trimWs kv0
    if vault = [] then none
    else if begWith "http://".toList vault || begWith "https://".toList vault then
      some (trimEndCh '/' vault)
    else
      some ("https://".toList ++ trimEndCh '/' vault ++ ".vault.azure.net".toList)

/-- Loop of Rust `str::trim_start_matches(&str)`, with fuel for termination:
each successful strip of a non-empty pattern shortens the string, so
`s.length + 1` fuel is always enough. -/
def trimBegStrGo : Nat → Str → Str → Str
  | 0, _, s => s
  | Nat.succ n, pat, s =>
    match dropPre? pat s with
    | some r => if pat = [] then s else trimBegStrGo n pat r
    | none => s

/-- Rust `str::trim_start_matches(&str)`: repeatedly remove a leading
occurrence of the pattern. -/
def trimBegStr (pat s : Str) : Str := trimBegStrGo (s.length + 1) pat s

/-- `kv::create_or_update_secret`'s vault-name derivation from the base. -/
def vault_name_of_base (base : Str) : Str :=
  let stripped := trimBegStr "http://".toList (trimBegStr "https://".toList base)
  (splitCh '.' stripped).headD base

/-- `kv::secret_name_from_key` maps every non-alphanumeric character of the
key to a space... -/
def sanitize_key (k : Str) : Str :=
  k.map (fun c => if c.isAlphanum then c else ' ')

/-- ...and hands the result to the external heck crate's
`to_upper_camel_case`, modelled by the `camel` oracle parameter. -/
def secret_name_from_key (camel : Str → Str) (k : Str) : Str :=
  camel (sanitize_key k)

/-! ## Remote boundary and the per-entry import worker (src/commands.rs) -/

/-- The az CLI calls a worker can issue while writing one entry. -/
inductive RemoteAction where
  | secretSet (vault name value : Str)
  | entryWrite (key value : Str)
  | keyvaultWrite (key uri : Str)
deriving DecidableEq, Repr

/-- Oracle for the external az CLI: what `show` returns (None = the call
failed / key not found) and whether each write call succeeds. -/
structure Remote where
  show_entry : Str → Option KeyValue
  secretSetOk : Str → Str → Str → Bool
  entryWriteOk : Str → Str → Bool
  keyvaultWriteOk : Str → Str → Bool

/-- `kv::set_secret_value`: parse the secret URI, then one
`az keyvault secret set` call.  Returns the success flag and the calls made. -/
def set_secret_value (r : Remote) (uri value : Str) : Bool × List RemoteAction :=
  match parse_secret_uri uri with
  | none => (false, [])
  | some vn => (r.secretSetOk vn.1 vn.2 value, [.secretSet vn.1 vn.2 value])

/-- `kv::build_keyvault_reference`: normalize the vault base, derive the
secret name, create/update the secret, and return its canonical address. -/
def build_keyvault_reference (camel : Str → Str) (r : Remote) (ctx : ActiveKvContext)
    (full_key secret_value : Str) : Option Str × List RemoteAction :=
  match ensure_vault_base ctx.keyvault with
  | none => (none, [])
  | some base =>
    let nm := secret_name_from_key camel full_key
    let uri := base ++ "/secrets/".toList ++ nm
    let vn := vault_name_of_base base
    if r.secretSetOk vn nm secret_value then (some uri, [.secretSet vn nm secret_value])
    else (none, [.secretSet vn nm secret_value])

inductive EntryValueType where
  | plain
  | keyVault
  | prompt
deriving DecidableEq, Repr

structure ImportEntry where
  key : Str
  value : Str
  value_type : EntryValueType
deriving DecidableEq, Repr

/-- `kv::process_import_entry`: the per-entry write policy of one import
worker.  Returns the success flag and the az CLI calls that were issued. -/
def process_import_entry (camel : Str → Str) (jparse : Str → Option Json)
    (r : Remote) (ctx : ActiveKvContext) (e : ImportEntry) : Bool × List RemoteAction :=
  let full_key := prefix_key ctx e.key
  match r.show_entry full_key with
  | some existing =>
    match keyvault_uri_from_entry jparse existing with
    | some secret_uri => set_secret_value r secret_uri e.value
    | none => (r.entryWriteOk full_key e.value, [.entryWrite full_key e.value])
  | none =>
    match e.value_type with
    | .keyVault =>
      match build_keyvault_reference camel r ctx full_key e.value with
      | (some uri, tr) => (r.keyvaultWriteOk full_key uri, tr ++ [.keyvaultWrite full_key uri])
      | (none, tr) => (false, tr)
    | .plain => (r.entryWriteOk full_key e.value, [.entryWrite full_key e.value])
    | .prompt => (false, [])

/-! ## Env export (src/commands.rs, `serialize_env_entries` and helpers) -/

structure PreparedExportEntry where
  key : Str
  value : Str
  from_keyvault : Bool
deriving DecidableEq, Repr

/-- `kv::needs_env_quotes`. -/
def needs_env_quotes (v : Str) : Bool :=
  if v = [] then true
  else
    ¬ v.all (fun c =>
      decide (('a' ≤ c ∧ c ≤ 'z') ∨ ('A' ≤ c ∧ c ≤ 'Z') ∨ ('0' ≤ c ∧ c ≤ '9') ∨
        c = '_' ∨ c = '.' ∨ c = '-' ∨ c = '/' ∨ c = ':'))

/-- The per-character case of `kv::escape_double_quoted`. -/
def escCh (c : Char) : Str :=
  if c = '\n' then "\\n".toList
  else if c = '\r' then "\\r".toList
  else if c = '\t' then "\\t".toList
  else if c = '\\' then "\\\\".toList
  else if c = '"' then "\\\"".toList
  else [c]

/-- `kv::escape_double_quoted`. -/
def escape_double_quoted (s : Str) : Str := (s.map escCh).flatten

/-- `kv::encode_env_value`. -/
def encode_env_value (v : Str) : Str :=
  if ¬ needs_env_quotes v then v
  else '"' :: (escape_double_quoted v ++ ['"'])

/-- `kv::serialize_env_entries`: `KEY=VALUE` lines joined by newlines, with
one trailing newline when non-empty. -/
def serialize_env_entries (entries : List PreparedExportEntry) : Str :=
  let data := List.intercalate "\n".toList
    (entries.map (fun e => e.key ++ '=' :: encode_env_value e.value))
  if data = [] then data else data ++ "\n".toList

/-! ## Env import parsing (src/commands.rs, `parse_env_entries` and helpers) -/

/-- Loop of `kv::strip_env_comment`: returns the part before an unquoted
`#` when one exists. -/
def sec_go (inS inD esc : Bool) : Str → Option Str
  | [] => none
  | c :: s =>
    if esc then (sec_go inS inD false s).map (c :: ·)
    else if c = '\\' ∧ inD then (sec_go inS inD true s).map (c :: ·)
    else if c = Char.ofNat 39 ∧ ¬ inD then (sec_go (¬ inS) inD false s).map (c :: ·)
    else if c = '"' ∧ ¬ inS then (sec_go inS (¬ inD) false s).map (c :: ·)
    else if c = '#' ∧ ¬ inS ∧ ¬ inD then some []
    else (sec_go inS inD false s).map (c :: ·)

/-- `kv::strip_env_comment`: cut a same-line comment whose `#` is outside
any quote, trimming trailing whitespace before it. -/
def strip_env_comment (v : Str) : Str :=
  match sec_go false false false v with
  | some before => trimRightWs before
  | none => v

/-- `kv::unescape_double_quoted`. -/
def unescape_double_quoted : Str → Str
  | [] => []
  | ['\\'] => ['\\']
  | '\\' :: n :: rest =>
    (if n = 'n' then ['\n']
     else if n = 'r' then ['\r']
     else if n = 't' then ['\t']
     else if n = '\\' then ['\\']
     else if n = '"' then ['"']
     else ['\\', n]) ++ unescape_double_quoted rest
  | c :: rest => c :: unescape_double_quoted rest

/-- `kv::parse_env_value`. -/
def parse_env_value (raw : Str) : Str :=
  let t := trimWs (strip_env_comment raw)
  if 2 ≤ t.length ∧ begWith ['"'] t ∧ endWith ['"'] t then
    unescape_double_quoted ((t.drop 1).dropLast)
  else if 2 ≤ t.length ∧ begWith [Char.ofNat 39] t ∧ endWith [Char.ofNat 39] t then
    (t.drop 1).dropLast
  else t

/-- Rust `str::lines`: split on newlines, dropping one trailing `\r` per
line and a final empty piece. -/
def linesOf (s : Str) : List Str :=
  let ps := splitCh '\n' s
  let ps := if ps.getLast? = some [] then ps.dropLast else ps
  ps.map (fun l => if endWith ['\r'] l then l.dropLast else l)

/-- `kv::parse_env_entries` (diagnostics for skipped lines are stderr only
and not modelled). -/
def parse_env_entries (contents : Str) : Except Str (List ImportEntry) :=
  let entries := (linesOf contents).foldl
    (fun acc raw =>
      let t := trimWs raw
      if t = [] ∨ begWith ['#'] t then acc
      else
        let line := trimWs ((dropPre? "export ".toList t).getD t)
        match splitOnceCh '=' line with
        | none => acc
        | some kv =>
          let key := trimWs kv.1
          if key = [] then acc
          else acc ++ [⟨key, parse_env_value (trimWs kv.2), .prompt⟩])
    []
  if entries = [] then .error "no key=value pairs found".toList else .ok entries

/-! ## Import format auto-detection (src/commands.rs, `parse_import_map`) -/

inductive ImportFormat where
  | json
  | yaml
  | toml
  | env
deriving DecidableEq, Repr

/-- `kv::is_env_like`. -/
def is_env_like (name : Str) : Bool :=
  if name = [] then false
  else
    let l := toLowerAscii name
    l = "env".toList || l = ".env".toList || endWith ".env".toList l ||
      hasSub ".env.".toList l

/-- `kv::format_detection_order`: extension-implied format, env when the
file name is env-like, then the JSON/YAML/TOML/env cascade, deduplicated. -/
def format_detection_order (ext file_name : Str) : List ImportFormat :=
  let pushU := fun (l : List ImportFormat) f => if l.contains f then l else l ++ [f]
  let o : List ImportFormat := []
  let o :=
    if ext = "json".toList then pushU o .json
    else if ext = "yaml".toList ∨ ext = "yml".toList then pushU o .yaml
    else if ext = "toml".toList then pushU o .toml
    else if ext = "env".toList then pushU o .env
    else o
  let o := if is_env_like file_name then pushU o .env else o
  let o := pushU o .json
  let o := pushU o .yaml
  let o := pushU o .toml
  pushU o .env

/-- Observable outcome of `kv::parse_import_map` after the file was read
(reading the file and the empty-contents check are external I/O):
the returned entries, the "No entries found" abort, or the parse-failure
diagnostic that is reported. -/
inductive ImportOutcome where
  | entries (es : List ImportEntry)
  | noEntries
  | lastError (f : ImportFormat) (msg : Str)
  | noFormats
deriving DecidableEq, Repr

/-- The format loop of `kv::parse_import_map`: the accumulator carries the
last parse error, mirroring `errors.last()`. -/
def cascade (oracle : ImportFormat → Except Str (List ImportEntry)) :
    List ImportFormat → Option (ImportFormat × Str) → ImportOutcome
  | [], none => .noFormats
  | [], some fe => .lastError fe.1 fe.2
  | f :: rest, lastE =>
    match oracle f with
    | .ok [] => .noEntries
    | .ok es => .entries es
    | .error e =>
      have := lastE
      cascade oracle rest (some (f, e))

/-- `kv::parse_import_map`, generic over the per-format parse results
(`parse_with_format` on the fixed file contents). -/
def parse_import_map (oracle : ImportFormat → Except Str (List ImportEntry))
    (ext file_name : Str) : ImportOutcome :=
  cascade oracle (format_detection_order ext file_name) none

/-- Spec-side definition (refinement target), following the spec's words:
the first format whose content parses successfully and yields a non-empty
entry set. -/
def firstNonEmptyOk (oracle : ImportFormat → Except Str (List ImportEntry)) :
    List ImportFormat → Option (ImportFormat × List ImportEntry)
  | [] => none
  | f :: rest =>
    match oracle f with
    | .ok (e :: es) => some (f, e :: es)
    | _ => firstNonEmptyOk oracle rest

/-- The first format that parses successfully at all (possibly empty). -/
def firstOkFormat (oracle : ImportFormat → Except Str (List ImportEntry)) :
    List ImportFormat → Option (ImportFormat × List ImportEntry)
  | [] => none
  | f :: rest =>
    match oracle f with
    | .ok es => some (f, es)
    | .error _ => firstOkFormat oracle rest

/-! ## Worker pool (src/commands.rs, `import_entries`) -/

/-- The worker-count computation of `kv::import_entries`:
`available_parallelism().unwrap_or(4).min(total).max(1)`. -/
def worker_count (available_parallelism total : Nat) : Nat :=
  max (min available_parallelism total) 1

/-- One interleaved execution of the worker pool: `sched` names the worker
taking each successive pop of the mutex-guarded FIFO queue (a worker whose
pop finds the queue empty stops).  Returns the pops in order and the
remaining queue. -/
def runPops (sched : List Nat) (q : List ImportEntry) :
    List (Nat × ImportEntry) × List ImportEntry :=
  match sched, q with
  | [], q => ([], q)
  | _ :: rest, [] => runPops rest []
  | w :: rest, e :: q' =>
    let p := runPops rest q'
    ((w, e) :: p.1, p.2)

/-! ## Edge-character predicates used as well-formedness hypotheses -/

/-- The head of the string (when any) does not satisfy `p`. -/
def headNot (p : Char → Bool) : Str → Bool
  | [] => true
  | c :: _ => ! p c

/-- Neither end of the string satisfies `p`. -/
def noEdge (p : Char → Bool) (s : Str) : Bool := headNot p s && headNot p s.reverse

/-- No leading or trailing whitespace. -/
def noEdgeWs (s : Str) : Bool := noEdge isWs s

/-- The string neither starts nor ends with the character `c`. -/
def noEdgeCh (c : Char) (s : Str) : Bool := noEdge (fun d => d = c) s

/-- Modelled from the spec: the canonical secret address
`https://{vault}.vault.azure.net/secrets/{name}[/{version}]` (§6, secret
reference encodings). -/
def canonical_secret_uri (vault name : Str) (version : Option Str) : Str :=
  "https://".toList ++ vault ++ ".vault.azure.net/secrets/".toList ++ name ++
    (match version with
     | some ver => '/' :: ver
     | none => [])

/-- Modelled from the spec: the optional version segment of a canonical
secret address (the path segment after the secret name).  The code's own
`parse_secret_uri` extracts only vault and name; this spec-side extractor
is used to compare decoded references component-wise. -/
def secret_uri_version (uri : Str) : Option Str :=
  match splitOnceSub "://".toList uri with
  | none => none
  | some p =>
    match splitCh '/' p.2 with
    | _ :: _ :: _ :: ver :: _ => if ver = [] then none else some ver
    | _ => none

/-- The identity of a secret reference: the vault and secret name exactly
as the code's `parse_secret_uri` extracts them, plus the spec-modelled
version segment. -/
def ref_components (uri : Str) : Option (Str × Str × Option Str) :=
  (parse_secret_uri uri).map (fun vn => (vn.1, vn.2, secret_uri_version uri))

/-- Concrete parse oracle used to exhibit the cascade behaviour on the file
contents `{} # a=b` (with no recognized extension): serde_json rejects it,
serde_yaml parses it as the empty flow mapping followed by a comment (an
empty entry set), toml rejects it, while the in-repo env parser reads one
`{} # a` = `b` entry from it. -/
def c1Oracle : ImportFormat → Except Str (List ImportEntry)
  | .json => .error "expected value at line 1 column 1".toList
  | .yaml => .ok []
  | .toml => .error "expected an equals, found an identifier at line 1 column 2".toList
  | .env => parse_env_entries "{} # a=b".toList

end Azac

namespace Azac

/-! ## Supporting lemmas -/

theorem dropPre?_append (p s : Str) : dropPre? p (p ++ s) = some s := by
  induction p with
  | nil => rfl
  | cons c cs ih => simp [dropPre?, ih]

theorem dropSuf?_concat (c : Char) (s : Str) : dropSuf? [c] (s ++ [c]) = some s := by
  simp [dropSuf?, dropPre?]

theorem hasCh_append (c : Char) (a b : Str) :
    hasCh c (a ++ b) = (hasCh c a || hasCh c b) := by
  induction a with
  | nil => simp [hasCh]
  | cons d ds ih => by_cases h : d = c <;> simp [hasCh, h, ih]

theorem splitCh_not_has {c : Char} {a : Str} (h : hasCh c a = false) :
    splitCh c a = [a] := by
  induction a with
  | nil => rfl
  | cons d ds ih =>
    simp only [hasCh, Bool.or_eq_false_iff] at h
    simp only [splitCh, if_neg (by simpa using h.1), ih h.2]

theorem splitCh_append_cons {c : Char} {a : Str} (b : Str) (h : hasCh c a = false) :
    splitCh c (a ++ c :: b) = a :: splitCh c b := by
  induction a with
  | nil => simp [splitCh]
  | cons d ds ih =>
    simp only [hasCh, Bool.or_eq_false_iff] at h
    simp only [List.cons_append, splitCh, if_neg (by simpa using h.1), List.append_eq,
      ih h.2]

theorem splitOnceCh_append_cons {c : Char} {k : Str} (v : Str) (h : hasCh c k = false) :
    splitOnceCh c (k ++ c :: v) = some (k, v) := by
  induction k with
  | nil => simp [splitOnceCh]
  | cons d ds ih =>
    simp only [hasCh, Bool.or_eq_false_iff] at h
    simp only [List.cons_append, splitOnceCh, if_neg (by simpa using h.1), List.append_eq,
      ih h.2, Option.map_some']

theorem dropWhile_headNot {p : Char → Bool} {s : Str} (h : headNot p s = true) :
    s.dropWhile p = s := by
  cases s with
  | nil => rfl
  | cons c cs =>
    simp only [headNot, Bool.not_eq_true'] at h
    simp [List.dropWhile, h]

theorem trimLeftWs_eq_self {s : Str} (h : headNot isWs s = true) : trimLeftWs s = s :=
  dropWhile_headNot h

theorem trimRightWs_eq_self {s : Str} (h : headNot isWs s.reverse = true) :
    trimRightWs s = s := by
  simp [trimRightWs, dropWhile_headNot h]

theorem trimWs_eq_self {s : Str} (h : noEdgeWs s = true) : trimWs s = s := by
  simp only [noEdgeWs, noEdge, Bool.and_eq_true] at h
  simp [trimWs, trimLeftWs_eq_self h.1, trimRightWs_eq_self h.2]

theorem trimEndCh_eq_self {c : Char} {s : Str}
    (h : headNot (fun d => d = c) s.reverse = true) : trimEndCh c s = s := by
  simp [trimEndCh, dropWhile_headNot h]

theorem trimBegCh_eq_self {c : Char} {s : Str}
    (h : headNot (fun d => d = c) s = true) : trimBegCh c s = s :=
  dropWhile_headNot h

theorem trimBothCh_eq_self {c : Char} {s : Str} (h : noEdgeCh c s = true) :
    trimBothCh c s = s := by
  simp only [noEdgeCh, noEdge, Bool.and_eq_true] at h
  simp [trimBothCh, trimBegCh_eq_self h.1, trimEndCh_eq_self h.2]

theorem headNot_append_left {p : Char → Bool} {k : Str} (v : Str)
    (hk : k ≠ []) (h : headNot p k = true) : headNot p (k ++ v) = true := by
  cases k with
  | nil => exact absurd rfl hk
  | cons c cs => simpa [headNot] using h

theorem headNot_rev_append_right {p : Char → Bool} (k : Str) {v : Str}
    (hv : v ≠ []) (h : headNot p v.reverse = true) :
    headNot p (k ++ v).reverse = true := by
  rw [List.reverse_append]
  apply headNot_append_left
  · simpa using hv
  · exact h

theorem alContains_remove (x k : Str) (l : CtxMap) :
    alContains x (alRemove k l) = (! decide (x = k) && alContains x l) := by
  induction l with
  | nil => simp [alContains, alRemove]
  | cons p ps ih =>
    by_cases hxk : x = k
    · subst hxk
      by_cases hpk : p.1 = x <;>
        simp_all [alContains, alRemove, List.filter]
    · by_cases hpk : p.1 = k
      · have hpx : ¬ p.1 = x := by rw [hpk]; exact fun hh => hxk hh.symm
        simp_all [alContains, alRemove, List.filter]
      · by_cases hpx : p.1 = x <;>
          simp_all [alContains, alRemove, List.filter]

theorem alContains_remove_ne {x k : Str} (l : CtxMap) (h : x ≠ k) :
    alContains x (alRemove k l) = alContains x l := by
  simp [alContains_remove, h]

theorem alContains_insert (x k : Str) (v : Context) (l : CtxMap) :
    alContains x (alInsert k v l) = (decide (k = x) || alContains x l) := by
  by_cases hxk : x = k
  · subst hxk
    simp [alInsert, alContains, alContains_remove]
  · simp only [alInsert, alContains, List.any_cons]
    have : (decide (k = x)) = false := by
      simp only [decide_eq_false_iff_not]
      exact fun hh => hxk hh.symm
    simp only [this, Bool.false_or]
    simpa [alContains] using alContains_remove_ne l hxk

theorem runPops_nil (sched : List Nat) : runPops sched [] = ([], []) := by
  induction sched with
  | nil => rfl
  | cons w rest ih => simpa [runPops] using ih

theorem noEdgeWs_concat {k v : Str} (hk : k ≠ []) (h1 : headNot isWs k = true)
    (hv : v ≠ []) (h2 : headNot isWs v.reverse = true) : noEdgeWs (k ++ v) = true := by
  simp only [noEdgeWs, noEdge, Bool.and_eq_true]
  exact ⟨headNot_append_left v hk h1, headNot_rev_append_right k hv h2⟩

theorem noEdgeWs_head {v : Str} (hv : noEdgeWs v = true) : headNot isWs v = true := by
  simp only [noEdgeWs, noEdge, Bool.and_eq_true] at hv
  exact hv.1

theorem noEdgeWs_tail {v : Str} (hv : noEdgeWs v = true) :
    headNot isWs v.reverse = true := by
  simp only [noEdgeWs, noEdge, Bool.and_eq_true] at hv
  exact hv.2

theorem fieldStep_named (acc : FieldAcc) (k0 v : Str) (hk0ne : k0 ≠ [])
    (hk0h : headNot isWs k0 = true) (hk0eq : hasCh '=' k0 = false)
    (hk0tr : trimWs k0 = k0) (hv : noEdgeWs v = true) (hvne : v ≠ []) :
    fieldStep acc (k0 ++ '=' :: v) =
      (if toLowerAscii k0 = "secreturi".toList then { acc with secretUri := some v }
       else if toLowerAscii k0 = "vaultname".toList then { acc with vaultName := some v }
       else if toLowerAscii k0 = "secretname".toList then { acc with secretName := some v }
       else if toLowerAscii k0 = "secretversion".toList then
         { acc with secretVersion := some v }
       else acc) := by
  have htr : trimWs (k0 ++ '=' :: v) = k0 ++ '=' :: v := by
    apply trimWs_eq_self
    simp only [noEdgeWs, noEdge, Bool.and_eq_true]
    refine ⟨headNot_append_left _ hk0ne hk0h, ?_⟩
    have h1 : headNot isWs ('=' :: v).reverse = true := by
      rw [List.reverse_cons]
      exact headNot_append_left _ (by simpa using hvne) (noEdgeWs_tail hv)
    exact headNot_rev_append_right k0 (by simp) h1
  have hne2 : ¬ (k0 ++ '=' :: v) = ([] : Str) := by simp
  have hsplit := splitOnceCh_append_cons (c := '=') v hk0eq
  have hvtr : trimWs v = v := trimWs_eq_self hv
  simp only [fieldStep, htr, if_neg hne2, hsplit, hk0tr, hvtr, if_neg hvne]

theorem fieldStep_secretUri (acc : FieldAcc) (v : Str) (hv : noEdgeWs v = true)
    (hvne : v ≠ []) :
    fieldStep acc ("secretUri=".toList ++ v) = { acc with secretUri := some v } := by
  rw [show ("secretUri=".toList ++ v : Str) = "secretUri".toList ++ '=' :: v from rfl]
  rw [fieldStep_named acc "secretUri".toList v (by decide) (by decide) (by decide)
    (by decide) hv hvne]
  rw [show toLowerAscii "secretUri".toList = "secreturi".toList from by decide]
  rw [if_pos rfl]

theorem fieldStep_vaultName (acc : FieldAcc) (v : Str) (hv : noEdgeWs v = true)
    (hvne : v ≠ []) :
    fieldStep acc ("VaultName=".toList ++ v) = { acc with vaultName := some v } := by
  rw [show ("VaultName=".toList ++ v : Str) = "VaultName".toList ++ '=' :: v from rfl]
  rw [fieldStep_named acc "VaultName".toList v (by decide) (by decide) (by decide)
    (by decide) hv hvne]
  rw [show toLowerAscii "VaultName".toList = "vaultname".toList from by decide]
  rw [if_neg (by decide), if_pos rfl]

theorem fieldStep_secretName (acc : FieldAcc) (v : Str) (hv : noEdgeWs v = true)
    (hvne : v ≠ []) :
    fieldStep acc ("SecretName=".toList ++ v) = { acc with secretName := some v } := by
  rw [show ("SecretName=".toList ++ v : Str) = "SecretName".toList ++ '=' :: v from rfl]
  rw [fieldStep_named acc "SecretName".toList v (by decide) (by decide) (by decide)
    (by decide) hv hvne]
  rw [show toLowerAscii "SecretName".toList = "secretname".toList from by decide]
  rw [if_neg (by decide), if_neg (by decide), if_pos rfl]

theorem fieldStep_secretVersion (acc : FieldAcc) (v : Str) (hv : noEdgeWs v = true)
    (hvne : v ≠ []) :
    fieldStep acc ("SecretVersion=".toList ++ v) =
      { acc with secretVersion := some v } := by
  rw [show ("SecretVersion=".toList ++ v : Str) = "SecretVersion".toList ++ '=' :: v
    from rfl]
  rw [fieldStep_named acc "SecretVersion".toList v (by decide) (by decide) (by decide)
    (by decide) hv hvne]
  rw [show toLowerAscii "SecretVersion".toList = "secretversion".toList from by decide]
  rw [if_neg (by decide), if_neg (by decide), if_neg (by decide), if_pos rfl]

theorem cascade_firstOk (oracle : ImportFormat → Except Str (List ImportEntry)) :
    ∀ (l : List ImportFormat) (acc : Option (ImportFormat × Str)) (f : ImportFormat)
      (es : List ImportEntry), firstOkFormat oracle l = some (f, es) →
      (es = [] → cascade oracle l acc = .noEntries) ∧
      (es ≠ [] → cascade oracle l acc = .entries es) := by
  intro l
  induction l with
  | nil => intro acc f es h; simp [firstOkFormat] at h
  | cons g rest ih =>
    intro acc f es h
    cases ho : oracle g with
    | ok gs =>
      simp only [firstOkFormat, ho, Option.some.injEq, Prod.mk.injEq] at h
      obtain ⟨hf, hes⟩ := h
      subst hf
      subst hes
      constructor
      · intro he
        subst he
        simp [cascade, ho]
      · intro hne
        cases gs with
        | nil => exact absurd rfl hne
        | cons x xs => simp [cascade, ho]
    | error e =>
      simp only [firstOkFormat, ho] at h
      have := ih (some (g, e)) f es h
      simpa [cascade, ho] using this

theorem cascade_all_error (oracle : ImportFormat → Except Str (List ImportEntry)) :
    ∀ (l : List ImportFormat) (acc : Option (ImportFormat × Str)) (lf : ImportFormat)
      (e : Str), l.getLast? = some lf →
      (∀ f ∈ l, ∀ es, ¬ oracle f = .ok es) → oracle lf = .error e →
      cascade oracle l acc = .lastError lf e := by
  intro l
  induction l with
  | nil => intro acc lf e hl; simp at hl
  | cons g rest ih =>
    intro acc lf e hl hall hlf
    cases ho : oracle g with
    | ok gs => exact absurd ho (hall g (by simp) gs)
    | error ge =>
      cases rest with
      | nil =>
        simp only [List.getLast?_singleton, Option.some.injEq] at hl
        subst hl
        rw [ho] at hlf
        injection hlf with he
        subst he
        simp [cascade, ho]
      | cons r rs =>
        have hl' : (r :: rs).getLast? = some lf := by
          simpa [List.getLast?_cons_cons] using hl
        have := ih (some (g, ge)) lf e hl'
          (fun f hf => hall f (by simp [hf])) hlf
        simpa [cascade, ho] using this

theorem firstOk_to_firstNonEmpty (oracle : ImportFormat → Except Str (List ImportEntry)) :
    ∀ (l : List ImportFormat) (f : ImportFormat) (es : List ImportEntry),
      firstOkFormat oracle l = some (f, es) → es ≠ [] →
      firstNonEmptyOk oracle l = some (f, es) := by
  intro l
  induction l with
  | nil => intro f es h; simp [firstOkFormat] at h
  | cons g rest ih =>
    intro f es h hne
    cases ho : oracle g with
    | ok gs =>
      simp only [firstOkFormat, ho, Option.some.injEq, Prod.mk.injEq] at h
      obtain ⟨hf, hes⟩ := h
      subst hf
      subst hes
      cases gs with
      | nil => exact absurd rfl hne
      | cons x xs => simp [firstNonEmptyOk, ho]
    | error e =>
      simp only [firstOkFormat, ho] at h
      simp only [firstNonEmptyOk, ho]
      exact ih f es h hne

/-! ## Claim theorems -/

/-- C1 (amended): formats are tried in the priority order given by
`format_detection_order`; when the first format that parses successfully
yields a non-empty entry set, its entries are returned (and it coincides
with the spec's "first format whose content parses successfully and yields
a non-empty entry set"); a format that parses successfully to an *empty*
entry set terminates the cascade with the "no entries" outcome without
trying later formats; when every attempted format fails to parse, the
reported error carries the diagnostic of the last attempted format. -/
theorem C1_format_cascade (oracle : ImportFormat → Except Str (List ImportEntry))
    (ext fname : Str) :
    (∀ f es, firstOkFormat oracle (format_detection_order ext fname) = some (f, es) →
      es ≠ [] →
      parse_import_map oracle ext fname = .entries es ∧
      firstNonEmptyOk oracle (format_detection_order ext fname) = some (f, es)) ∧
    (∀ f, firstOkFormat oracle (format_detection_order ext fname) = some (f, []) →
      parse_import_map oracle ext fname = .noEntries) ∧
    (∀ lf e, (∀ f ∈ format_detection_order ext fname, ∀ es, ¬ oracle f = .ok es) →
      (format_detection_order ext fname).getLast? = some lf → oracle lf = .error e →
      parse_import_map oracle ext fname = .lastError lf e) := by
  refine ⟨?_, ?_, ?_⟩
  · intro f es h hne
    exact ⟨(cascade_firstOk oracle _ none f es h).2 hne,
      firstOk_to_firstNonEmpty oracle _ f es h hne⟩
  · intro f h
    exact (cascade_firstOk oracle _ none f [] h).1 rfl
  · intro lf e hall hlast hlf
    exact cascade_all_error oracle _ none lf e hlast hall hlf

theorem hasCh_rev {c : Char} {s : Str} : hasCh c s.reverse = hasCh c s := by
  induction s with
  | nil => rfl
  | cons d ds ih =>
    rw [List.reverse_cons, hasCh_append, ih]
    by_cases h : d = c <;> simp [hasCh, h, Bool.or_comm]

theorem headNot_of_not_hasCh {c : Char} {s : Str} (h : hasCh c s = false) :
    headNot (fun d => d = c) s = true := by
  cases s with
  | nil => rfl
  | cons d ds =>
    simp only [hasCh, Bool.or_eq_false_iff] at h
    simp [headNot, h.1]

theorem headNot_rev_of_not_hasCh {c : Char} {s : Str} (h : hasCh c s = false) :
    headNot (fun d => d = c) s.reverse = true :=
  headNot_of_not_hasCh (by rw [hasCh_rev]; exact h)

theorem noEdgeCh_of_not_hasCh {c : Char} {s : Str} (h : hasCh c s = false) :
    noEdgeCh c s = true := by
  simp only [noEdgeCh, noEdge, Bool.and_eq_true]
  exact ⟨headNot_of_not_hasCh h, headNot_rev_of_not_hasCh h⟩

theorem app_parse_secretUri_wins (uri v n : Str)
    (huri : noEdgeWs uri = true) (hurine : uri ≠ []) (hurisemi : hasCh ';' uri = false)
    (hv : noEdgeWs v = true) (hvne : v ≠ []) (hvsemi : hasCh ';' v = false)
    (hn : noEdgeWs n = true) (hnne : n ≠ []) (hnsemi : hasCh ';' n = false) :
    app_parse_keyvault_reference (kvRefPre ++
        ((("secretUri=".toList ++ uri) ++ (';' :: (("VaultName=".toList ++ v) ++
          (';' :: ("SecretName=".toList ++ n))))) ++ [')']))
      = some uri := by
  have hf1semi : hasCh ';' ("secretUri=".toList ++ uri) = false := by
    rw [hasCh_append, hurisemi,
      show hasCh ';' "secretUri=".toList = false from by decide]
    rfl
  have hf2semi : hasCh ';' ("VaultName=".toList ++ v) = false := by
    rw [hasCh_append, hvsemi, show hasCh ';' "VaultName=".toList = false from by decide]
    rfl
  have hf3semi : hasCh ';' ("SecretName=".toList ++ n) = false := by
    rw [hasCh_append, hnsemi, show hasCh ';' "SecretName=".toList = false from by decide]
    rfl
  have hsplit : splitCh ';' (("secretUri=".toList ++ uri) ++
      (';' :: (("VaultName=".toList ++ v) ++ (';' :: ("SecretName=".toList ++ n)))))
      = ("secretUri=".toList ++ uri) :: ("VaultName=".toList ++ v) ::
        [("SecretName=".toList ++ n)] := by
    rw [splitCh_append_cons _ hf1semi, splitCh_append_cons _ hf2semi,
      splitCh_not_has hf3semi]
  have hinner : noEdgeWs (("secretUri=".toList ++ uri) ++
      (';' :: (("VaultName=".toList ++ v) ++
        (';' :: ("SecretName=".toList ++ n))))) = true := by
    apply noEdgeWs_concat
    · simp
    · exact headNot_append_left _ (by simp) (by decide)
    · simp
    · rw [List.reverse_cons]
      apply headNot_append_left _ (by simp)
      rw [List.reverse_append, List.reverse_cons]
      apply headNot_append_left _ (by simp [hnne])
      apply headNot_append_left _ (by simp [hnne])
      exact headNot_rev_append_right _ hnne (noEdgeWs_tail hn)
  have htpne : (("secretUri=".toList ++ uri) ++ (';' :: (("VaultName=".toList ++ v) ++
      (';' :: ("SecretName=".toList ++ n))))) ≠ [] := by simp
  simp only [app_parse_keyvault_reference, dropPre?_append, dropSuf?_concat,
    trimWs_eq_self hinner, if_neg htpne, hsplit, List.foldl_cons, List.foldl_nil,
    fieldStep_secretUri _ _ huri hurine, fieldStep_vaultName _ _ hv hvne,
    fieldStep_secretName _ _ hn hnne]

theorem app_parse_vaultName_fields (v n : Str)
    (hv : noEdgeWs v = true) (hvne : v ≠ []) (hvsemi : hasCh ';' v = false)
    (hvh1 : begWith "http://".toList v = false)
    (hvh2 : begWith "https://".toList v = false)
    (hvslash : headNot (fun d => d = '/') v.reverse = true)
    (hn : noEdgeWs n = true) (hnne : n ≠ []) (hnsemi : hasCh ';' n = false)
    (hnsl : noEdgeCh '/' n = true) :
    app_parse_keyvault_reference (kvRefPre ++
        ((("VaultName=".toList ++ v) ++ (';' :: ("SecretName=".toList ++ n))) ++ [')']))
      = some ("https://".toList ++ v ++ ".vault.azure.net/secrets/".toList ++ n) := by
  have hf1semi : hasCh ';' ("VaultName=".toList ++ v) = false := by
    rw [hasCh_append, hvsemi, show hasCh ';' "VaultName=".toList = false from by decide]
    rfl
  have hf2semi : hasCh ';' ("SecretName=".toList ++ n) = false := by
    rw [hasCh_append, hnsemi, show hasCh ';' "SecretName=".toList = false from by decide]
    rfl
  have hsplit : splitCh ';' (("VaultName=".toList ++ v) ++
      (';' :: ("SecretName=".toList ++ n)))
      = ("VaultName=".toList ++ v) :: [("SecretName=".toList ++ n)] := by
    rw [splitCh_append_cons _ hf1semi, splitCh_not_has hf2semi]
  have hinner : noEdgeWs (("VaultName=".toList ++ v) ++
      (';' :: ("SecretName=".toList ++ n))) = true := by
    apply noEdgeWs_concat
    · simp
    · exact headNot_append_left _ (by simp) (by decide)
    · simp
    · rw [List.reverse_cons]
      apply headNot_append_left _ (by simp [hnne])
      exact headNot_rev_append_right _ hnne (noEdgeWs_tail hn)
  have htpne : (("VaultName=".toList ++ v) ++
      (';' :: ("SecretName=".toList ++ n))) ≠ [] := by simp
  simp only [app_parse_keyvault_reference, dropPre?_append, dropSuf?_concat,
    trimWs_eq_self hinner, if_neg htpne, hsplit, List.foldl_cons, List.foldl_nil,
    fieldStep_vaultName _ _ hv hvne, fieldStep_secretName _ _ hn hnne,
    hvh1, hvh2, Bool.or_self, Bool.false_eq_true, if_false,
    trimEndCh_eq_self hvslash, trimBothCh_eq_self hnsl, Option.filter]
  simp [List.append_assoc]

theorem app_parse_vaultName_version_fields (v n ver : Str)
    (hv : noEdgeWs v = true) (hvne : v ≠ []) (hvsemi : hasCh ';' v = false)
    (hvh1 : begWith "http://".toList v = false)
    (hvh2 : begWith "https://".toList v = false)
    (hvslash : headNot (fun d => d = '/') v.reverse = true)
    (hn : noEdgeWs n = true) (hnne : n ≠ []) (hnsemi : hasCh ';' n = false)
    (hnsl : noEdgeCh '/' n = true)
    (hver : noEdgeWs ver = true) (hverne : ver ≠ []) (hversemi : hasCh ';' ver = false)
    (hversl : noEdgeCh '/' ver = true) :
    app_parse_keyvault_reference (kvRefPre ++
        ((("VaultName=".toList ++ v) ++ (';' :: (("SecretName=".toList ++ n) ++
          (';' :: ("SecretVersion=".toList ++ ver))))) ++ [')']))
      = some ("https://".toList ++ v ++ ".vault.azure.net/secrets/".toList ++ n ++
          ('/' :: ver)) := by
  have hf1semi : hasCh ';' ("VaultName=".toList ++ v) = false := by
    rw [hasCh_append, hvsemi, show hasCh ';' "VaultName=".toList = false from by decide]
    rfl
  have hf2semi : hasCh ';' ("SecretName=".toList ++ n) = false := by
    rw [hasCh_append, hnsemi, show hasCh ';' "SecretName=".toList = false from by decide]
    rfl
  have hf3semi : hasCh ';' ("SecretVersion=".toList ++ ver) = false := by
    rw [hasCh_append, hversemi,
      show hasCh ';' "SecretVersion=".toList = false from by decide]
    rfl
  have hsplit : splitCh ';' (("VaultName=".toList ++ v) ++
      (';' :: (("SecretName=".toList ++ n) ++
        (';' :: ("SecretVersion=".toList ++ ver)))))
      = ("VaultName=".toList ++ v) :: ("SecretName=".toList ++ n) ::
        [("SecretVersion=".toList ++ ver)] := by
    rw [splitCh_append_cons _ hf1semi, splitCh_append_cons _ hf2semi,
      splitCh_not_has hf3semi]
  have hinner : noEdgeWs (("VaultName=".toList ++ v) ++
      (';' :: (("SecretName=".toList ++ n) ++
        (';' :: ("SecretVersion=".toList ++ ver))))) = true := by
    apply noEdgeWs_concat
    · simp
    · exact headNot_append_left _ (by simp) (by decide)
    · simp
    · rw [List.reverse_cons]
      apply headNot_append_left _ (by simp)
      rw [List.reverse_append, List.reverse_cons]
      apply headNot_append_left _ (by simp [hverne])
      apply headNot_append_left _ (by simp [hverne])
      exact headNot_rev_append_right _ hverne (noEdgeWs_tail hver)
  have htpne : (("VaultName=".toList ++ v) ++ (';' :: (("SecretName=".toList ++ n) ++
      (';' :: ("SecretVersion=".toList ++ ver))))) ≠ [] := by simp
  simp only [app_parse_keyvault_reference, dropPre?_append, dropSuf?_concat,
    trimWs_eq_self hinner, if_neg htpne, hsplit, List.foldl_cons, List.foldl_nil,
    fieldStep_vaultName _ _ hv hvne, fieldStep_secretName _ _ hn hnne,
    fieldStep_secretVersion _ _ hver hverne,
    hvh1, hvh2, Bool.or_self, Bool.false_eq_true, if_false,
    trimEndCh_eq_self hvslash, trimBothCh_eq_self hnsl, trimBothCh_eq_self hversl,
    Option.filter, trimWs_eq_self hver, hverne]
  simp [List.append_assoc, trimBothCh_eq_self hversl, hverne]

theorem kv_decode_tries_inline_first (jparse : Str → Option Json) (e : KeyValue)
    (v0 u : Str) (hval : e.value = some v0)
    (hkv : kv_parse_keyvault_reference v0 = some u) :
    keyvault_uri_from_entry jparse e = some u := by
  simp [keyvault_uri_from_entry, hval, hkv]

theorem kv_decode_json_before_content_type (jparse : Str → Option Json) (e : KeyValue)
    (v0 u : Str) (hval : e.value = some v0)
    (hkv : kv_parse_keyvault_reference v0 = none)
    (hjson : parse_keyvault_json jparse v0 = some u) :
    keyvault_uri_from_entry jparse e = some u := by
  simp [keyvault_uri_from_entry, hval, hkv, hjson]

theorem splitOnceSub_https (r : Str) :
    splitOnceSub "://".toList ("https://".toList ++ r) = some ("https".toList, r) := rfl

theorem parse_canonical_none (v n : Str)
    (hv : noEdgeWs v = true) (hvne : v ≠ []) (hvsl : hasCh '/' v = false)
    (hvdot : hasCh '.' v = false)
    (hn : noEdgeWs n = true) (hnne : n ≠ []) (hnsl : hasCh '/' n = false) :
    parse_secret_uri (canonical_secret_uri v n none) = some (v, n) ∧
    secret_uri_version (canonical_secret_uri v n none) = none ∧
    vault_name_from_uri (canonical_secret_uri v n none) = some v := by
  have hcanon : canonical_secret_uri v n none =
      "https://".toList ++ ((v ++ ".vault.azure.net".toList) ++
        ('/' :: ("secrets".toList ++ ('/' :: n)))) := by
    simp [canonical_secret_uri, List.append_assoc]
  have hhostsl : hasCh '/' (v ++ ".vault.azure.net".toList) = false := by
    rw [hasCh_append, hvsl,
      show hasCh '/' ".vault.azure.net".toList = false from by decide]
    rfl
  have hsplit1 : splitCh '/' ((v ++ ".vault.azure.net".toList) ++
      ('/' :: ("secrets".toList ++ ('/' :: n))))
      = (v ++ ".vault.azure.net".toList) ::
        splitCh '/' ("secrets".toList ++ ('/' :: n)) :=
    splitCh_append_cons _ hhostsl
  have hsplit2 : splitCh '/' ("secrets".toList ++ ('/' :: n)) =
      "secrets".toList :: splitCh '/' n := splitCh_append_cons _ (by decide)
  have hsplit3 : splitCh '/' n = [n] := splitCh_not_has hnsl
  have hhosttr : trimWs (v ++ ".vault.azure.net".toList) =
      v ++ ".vault.azure.net".toList :=
    trimWs_eq_self (noEdgeWs_concat hvne (noEdgeWs_head hv) (by simp) (by decide))
  have hhostne : (v ++ ".vault.azure.net".toList) ≠ [] := by simp
  have hdots : splitCh '.' (v ++ ".vault.azure.net".toList) =
      v :: splitCh '.' "vault.azure.net".toList := by
    rw [show (".vault.azure.net".toList : Str) = '.' :: "vault.azure.net".toList
      from rfl]
    exact splitCh_append_cons _ hvdot
  refine ⟨?_, ?_, ?_⟩
  · simp only [parse_secret_uri, hcanon, splitOnceSub_https, hsplit1, hsplit2, hsplit3,
      hhosttr, if_neg hhostne,
      if_neg (by simp : ¬ ¬ ("secrets".toList : Str) = "secrets".toList),
      trimWs_eq_self hn, if_neg hnne, hdots]
    rfl
  · simp only [secret_uri_version, hcanon, splitOnceSub_https, hsplit1, hsplit2, hsplit3]
  · simp only [vault_name_from_uri, hcanon, splitOnceSub_https, hsplit1]
    simp only [List.headD_cons, hhosttr, if_neg hhostne, hdots]
    simp [hvne]

theorem parse_canonical_some (v n ver : Str)
    (hv : noEdgeWs v = true) (hvne : v ≠ []) (hvsl : hasCh '/' v = false)
    (hvdot : hasCh '.' v = false)
    (hn : noEdgeWs n = true) (hnne : n ≠ []) (hnsl : hasCh '/' n = false)
    (hverne : ver ≠ []) (hversl : hasCh '/' ver = false) :
    parse_secret_uri (canonical_secret_uri v n (some ver)) = some (v, n) ∧
    secret_uri_version (canonical_secret_uri v n (some ver)) = some ver ∧
    vault_name_from_uri (canonical_secret_uri v n (some ver)) = some v := by
  have hcanon : canonical_secret_uri v n (some ver) =
      "https://".toList ++ ((v ++ ".vault.azure.net".toList) ++
        ('/' :: ("secrets".toList ++ ('/' :: (n ++ ('/' :: ver)))))) := by
    simp [canonical_secret_uri, List.append_assoc]
  have hhostsl : hasCh '/' (v ++ ".vault.azure.net".toList) = false := by
    rw [hasCh_append, hvsl,
      show hasCh '/' ".vault.azure.net".toList = false from by decide]
    rfl
  have hsplit1 : splitCh '/' ((v ++ ".vault.azure.net".toList) ++
      ('/' :: ("secrets".toList ++ ('/' :: (n ++ ('/' :: ver))))))
      = (v ++ ".vault.azure.net".toList) ::
        splitCh '/' ("secrets".toList ++ ('/' :: (n ++ ('/' :: ver)))) :=
    splitCh_append_cons _ hhostsl
  have hsplit2 : splitCh '/' ("secrets".toList ++ ('/' :: (n ++ ('/' :: ver)))) =
      "secrets".toList :: splitCh '/' (n ++ ('/' :: ver)) :=
    splitCh_append_cons _ (by decide)
  have hsplit3 : splitCh '/' (n ++ ('/' :: ver)) = n :: splitCh '/' ver :=
    splitCh_append_cons _ hnsl
  have hsplit4 : splitCh '/' ver = [ver] := splitCh_not_has hversl
  have hhosttr : trimWs (v ++ ".vault.azure.net".toList) =
      v ++ ".vault.azure.net".toList :=
    trimWs_eq_self (noEdgeWs_concat hvne (noEdgeWs_head hv) (by simp) (by decide))
  have hhostne : (v ++ ".vault.azure.net".toList) ≠ [] := by simp
  have hdots : splitCh '.' (v ++ ".vault.azure.net".toList) =
      v :: splitCh '.' "vault.azure.net".toList := by
    rw [show (".vault.azure.net".toList : Str) = '.' :: "vault.azure.net".toList
      from rfl]
    exact splitCh_append_cons _ hvdot
  refine ⟨?_, ?_, ?_⟩
  · simp only [parse_secret_uri, hcanon, splitOnceSub_https, hsplit1, hsplit2, hsplit3,
      hsplit4, hhosttr, if_neg hhostne,
      if_neg (by simp : ¬ ¬ ("secrets".toList : Str) = "secrets".toList),
      trimWs_eq_self hn, if_neg hnne, hdots]
    rfl
  · simp only [secret_uri_version, hcanon, splitOnceSub_https, hsplit1, hsplit2, hsplit3,
      hsplit4, if_neg hverne]
  · simp only [vault_name_from_uri, hcanon, splitOnceSub_https, hsplit1]
    simp only [List.headD_cons, hhosttr, if_neg hhostne, hdots]
    simp [hvne]

theorem kv_inline_secreturi_decode (u : Str) (hne : u ≠ [])
    (jparse : Str → Option Json) (k : Str) (ct : Option Str) :
    keyvault_uri_from_entry jparse
      ⟨k, some ("@Microsoft.KeyVault(SecretUri=".toList ++ (u ++ [')'])), ct⟩
      = some u := by
  have hkv : kv_parse_keyvault_reference
      ("@Microsoft.KeyVault(SecretUri=".toList ++ (u ++ [')'])) = some u := by
    simp only [kv_parse_keyvault_reference, dropPre?_append, dropSuf?_concat,
      if_neg hne]
  exact kv_decode_tries_inline_first jparse _ _ u rfl hkv

theorem json_payload_decode (u : Str) (jparse : Str → Option Json) (k v0 : Str)
    (ct : Option Str)
    (hjp : jparse v0 = some (.obj [("uri".toList, .str u)]))
    (hkv : kv_parse_keyvault_reference v0 = none) :
    keyvault_uri_from_entry jparse ⟨k, some v0, ct⟩ = some u := by
  have hjson : parse_keyvault_json jparse v0 = some u := by
    simp [parse_keyvault_json, hjp, Json.getField, jGet, Json.asStr]
  exact kv_decode_json_before_content_type jparse _ _ u rfl hkv hjson

/-- C3: in the inline `@Microsoft.KeyVault(...)` syntax with
semicolon-delimited, case-insensitive named fields, a direct `secretUri`
field wins when present; otherwise `vaultName` and `secretName` combine
into `https://{vault}.vault.azure.net/secrets/{name}` with an optional
`secretVersion` appended as a final `/{version}` segment; and the inline
form is tried before the structured JSON payload form, which is tried
before the content-type fallback. -/
theorem C3_inline_reference_decode (uri v n ver : Str)
    (huri : noEdgeWs uri = true) (hurine : uri ≠ []) (hurisemi : hasCh ';' uri = false)
    (hv : noEdgeWs v = true) (hvne : v ≠ []) (hvsemi : hasCh ';' v = false)
    (hvh1 : begWith "http://".toList v = false)
    (hvh2 : begWith "https://".toList v = false)
    (hvslash : headNot (fun d => d = '/') v.reverse = true)
    (hn : noEdgeWs n = true) (hnne : n ≠ []) (hnsemi : hasCh ';' n = false)
    (hnsl : noEdgeCh '/' n = true)
    (hver : noEdgeWs ver = true) (hverne : ver ≠ []) (hversemi : hasCh ';' ver = false)
    (hversl : noEdgeCh '/' ver = true) :
    app_parse_keyvault_reference (kvRefPre ++
        ((("secretUri=".toList ++ uri) ++ (';' :: (("VaultName=".toList ++ v) ++
          (';' :: ("SecretName=".toList ++ n))))) ++ [')']))
      = some uri ∧
    app_parse_keyvault_reference (kvRefPre ++
        ((("VaultName=".toList ++ v) ++ (';' :: ("SecretName=".toList ++ n))) ++ [')']))
      = some ("https://".toList ++ v ++ ".vault.azure.net/secrets/".toList ++ n) ∧
    app_parse_keyvault_reference (kvRefPre ++
        ((("VaultName=".toList ++ v) ++ (';' :: (("SecretName=".toList ++ n) ++
          (';' :: ("SecretVersion=".toList ++ ver))))) ++ [')']))
      = some ("https://".toList ++ v ++ ".vault.azure.net/secrets/".toList ++ n ++
          ('/' :: ver)) ∧
    (∀ (jparse : Str → Option Json) (e : KeyValue) (v0 u : Str),
      e.value = some v0 → kv_parse_keyvault_reference v0 = some u →
      keyvault_uri_from_entry jparse e = some u) ∧
    (∀ (jparse : Str → Option Json) (e : KeyValue) (v0 u : Str),
      e.value = some v0 → kv_parse_keyvault_reference v0 = none →
      parse_keyvault_json jparse v0 = some u →
      keyvault_uri_from_entry jparse e = some u) :=
  ⟨app_parse_secretUri_wins uri v n huri hurine hurisemi hv hvne hvsemi hn hnne hnsemi,
    app_parse_vaultName_fields v n hv hvne hvsemi hvh1 hvh2 hvslash hn hnne hnsemi hnsl,
    app_parse_vaultName_version_fields v n ver hv hvne hvsemi hvh1 hvh2 hvslash
      hn hnne hnsemi hnsl hver hverne hversemi hversl,
    fun jparse e v0 u hval hkv => kv_decode_tries_inline_first jparse e v0 u hval hkv,
    fun jparse e v0 u hval hkv hjson =>
      kv_decode_json_before_content_type jparse e v0 u hval hkv hjson⟩

theorem C3_inline_reference_decode_witness :
    app_parse_keyvault_reference (kvRefPre ++
        ((("VaultName=".toList ++ "v1".toList) ++
          (';' :: ("SecretName=".toList ++ "s1".toList))) ++ [')']))
      = some ("https://".toList ++ "v1".toList ++
          ".vault.azure.net/secrets/".toList ++ "s1".toList) :=
  (C3_inline_reference_decode "u0".toList "v1".toList "s1".toList "ver1".toList
    (by decide) (by decide) (by decide) (by decide) (by decide) (by decide)
    (by decide) (by decide) (by decide) (by decide) (by decide) (by decide)
    (by decide) (by decide) (by decide) (by decide) (by decide)).2.1

/-- C4: for a vault name, secret name and optional version, each of the
three recognized secret-reference encodings — the inline
`@Microsoft.KeyVault(...)` form (both its `SecretUri` and its
`VaultName`/`SecretName`(/`SecretVersion`) spellings), the structured JSON
payload with a `uri` field, and the canonical https URI — decodes to a
reference with the same vault, secret name and version components, so
decoding and re-encoding yields an equivalent reference even when the
textual representation differs. -/
theorem C4_secret_reference_round_trip (v n ver : Str)
    (hv : noEdgeWs v = true) (hvne : v ≠ []) (hvsl : hasCh '/' v = false)
    (hvdot : hasCh '.' v = false) (hvsemi : hasCh ';' v = false)
    (hvh1 : begWith "http://".toList v = false)
    (hvh2 : begWith "https://".toList v = false)
    (hn : noEdgeWs n = true) (hnne : n ≠ []) (hnsl : hasCh '/' n = false)
    (hnsemi : hasCh ';' n = false)
    (hver : noEdgeWs ver = true) (hverne : ver ≠ []) (hversl : hasCh '/' ver = false)
    (hversemi : hasCh ';' ver = false) :
    ref_components (canonical_secret_uri v n none) = some (v, n, none) ∧
    ref_components (canonical_secret_uri v n (some ver)) = some (v, n, some ver) ∧
    vault_name_from_uri (canonical_secret_uri v n none) = some v ∧
    vault_name_from_uri (canonical_secret_uri v n (some ver)) = some v ∧
    (∀ over ∈ [none, some ver], ∀ (jparse : Str → Option Json) (k : Str)
        (ct : Option Str),
      keyvault_uri_from_entry jparse
        ⟨k, some ("@Microsoft.KeyVault(SecretUri=".toList ++
          (canonical_secret_uri v n over ++ [')'])), ct⟩
        = some (canonical_secret_uri v n over)) ∧
    (∀ over ∈ [none, some ver], ∀ (jparse : Str → Option Json) (k v0 : Str)
        (ct : Option Str),
      jparse v0 = some (.obj [("uri".toList, .str (canonical_secret_uri v n over))]) →
      kv_parse_keyvault_reference v0 = none →
      keyvault_uri_from_entry jparse ⟨k, some v0, ct⟩
        = some (canonical_secret_uri v n over)) ∧
    app_parse_keyvault_reference (kvRefPre ++
        ((("VaultName=".toList ++ v) ++ (';' :: ("SecretName=".toList ++ n))) ++ [')']))
      = some (canonical_secret_uri v n none) ∧
    app_parse_keyvault_reference (kvRefPre ++
        ((("VaultName=".toList ++ v) ++ (';' :: (("SecretName=".toList ++ n) ++
          (';' :: ("SecretVersion=".toList ++ ver))))) ++ [')']))
      = some (canonical_secret_uri v n (some ver)) := by
  have hc0 : canonical_secret_uri v n none =
      "https://".toList ++ v ++ ".vault.azure.net/secrets/".toList ++ n := by
    simp [canonical_secret_uri]
  have hc1 : canonical_secret_uri v n (some ver) =
      "https://".toList ++ v ++ ".vault.azure.net/secrets/".toList ++ n ++
        ('/' :: ver) := by
    simp [canonical_secret_uri]
  have hp0 := parse_canonical_none v n hv hvne hvsl hvdot hn hnne hnsl
  have hp1 := parse_canonical_some v n ver hv hvne hvsl hvdot hn hnne hnsl hverne hversl
  have hcne : ∀ over : Option Str, canonical_secret_uri v n over ≠ [] := by
    intro over
    unfold canonical_secret_uri
    apply List.append_ne_nil_of_left_ne_nil
    apply List.append_ne_nil_of_left_ne_nil
    apply List.append_ne_nil_of_left_ne_nil
    apply List.append_ne_nil_of_left_ne_nil
    decide
  refine ⟨?_, ?_, ?_, ?_, ?_, ?_, ?_, ?_⟩
  · simp [ref_components, hp0.1, hp0.2.1]
  · simp [ref_components, hp1.1, hp1.2.1]
  · exact hp0.2.2
  · exact hp1.2.2
  · intro over hover jparse k ct
    exact kv_inline_secreturi_decode _ (hcne over) jparse k ct
  · intro over hover jparse k v0 ct hjp hkv
    exact json_payload_decode _ jparse k v0 ct hjp hkv
  · rw [hc0]
    exact app_parse_vaultName_fields v n hv hvne hvsemi hvh1 hvh2
      (headNot_rev_of_not_hasCh hvsl) hn hnne hnsemi (noEdgeCh_of_not_hasCh hnsl)
  · rw [hc1]
    exact app_parse_vaultName_version_fields v n ver hv hvne hvsemi hvh1 hvh2
      (headNot_rev_of_not_hasCh hvsl) hn hnne hnsemi (noEdgeCh_of_not_hasCh hnsl)
      hver hverne hversemi (noEdgeCh_of_not_hasCh hversl)

theorem C4_secret_reference_round_trip_witness :
    ref_components (canonical_secret_uri "v1".toList "s1".toList (some "ver1".toList)) =
      some ("v1".toList, "s1".toList, some "ver1".toList) :=
  (C4_secret_reference_round_trip "v1".toList "s1".toList "ver1".toList
    (by decide) (by decide) (by decide) (by decide) (by decide) (by decide)
    (by decide) (by decide) (by decide) (by decide) (by decide) (by decide)
    (by decide) (by decide) (by decide)).2.1

theorem C1_format_cascade_witness :
    parse_import_map (fun f => match f with
        | .json => .ok [⟨"a".toList, "1".toList, .plain⟩]
        | _ => .error "e".toList) "json".toList "x.json".toList
      = .entries [⟨"a".toList, "1".toList, .plain⟩] :=
  ((C1_format_cascade (fun f => match f with
        | .json => .ok [⟨"a".toList, "1".toList, .plain⟩]
        | _ => .error "e".toList) "json".toList "x.json".toList).1 .json
      [⟨"a".toList, "1".toList, .plain⟩] (by rfl) (by simp)).1

/-- C1 counterexample: file contents `{} # a=b` under a file name with no
recognized extension ("data").  serde_json rejects the contents, serde_yaml
parses them as the empty flow mapping `{}` followed by a comment — a
successful parse with an *empty* entry set — so `parse_import_map` stops
with the "No entries found" outcome without attempting TOML or env.  Yet
the env format, attempted later in the order, parses a non-empty entry set
(`{} # a` = `b`), so per the claim the env entries should have been
returned. -/
theorem C1_counterexample :
    parse_import_map c1Oracle [] "data".toList = .noEntries ∧
    firstNonEmptyOk c1Oracle (format_detection_order [] "data".toList) =
      some (.env, [⟨"{} # a".toList, "b".toList, .prompt⟩]) :=
  ⟨by rfl, by rfl⟩

/-- C10: whenever the persisted context store's `current` field is
`some alias`, that alias is a key of the contexts map; every store operation
that writes back (returns `.ok`) preserves this invariant — `set` only
accepts an existing alias, `delete` clears `current` when the deleted alias
was current, and `rename`/`update` redirect `current` to the new alias when
the current context is renamed. -/
theorem C10_context_store_invariant (s : ContextStore) (hinv : storeInv s = true) :
    (∀ a s', ctx_set a s = .ok s' →
      storeInv s' = true ∧ alContains a s.contexts = true) ∧
    (∀ c s', ctx_save c s = .ok s' → storeInv s' = true) ∧
    (∀ a b s', ctx_clone a b s = .ok s' → storeInv s' = true) ∧
    (∀ a s', ctx_delete a s = .ok s' →
      storeInv s' = true ∧ (s.current = some a → s'.current = none)) ∧
    (∀ a b s', ctx_rename a b s = .ok s' →
      storeInv s' = true ∧ (s.current = some a → s'.current = some b)) ∧
    (∀ a c s', ctx_update a c s = .ok s' →
      storeInv s' = true ∧ (s.current = some a → s'.current = some c.aliasName)) := by
  refine ⟨?_, ?_, ?_, ?_, ?_, ?_⟩
  · intro a s' h
    simp only [ctx_set] at h
    split at h
    · exact absurd h (by simp)
    · next hc =>
      have hc' : alContains a s.contexts = true := by
        by_contra hcc
        exact hc (by simpa using hcc)
      simp only [Except.ok.injEq] at h
      subst h
      exact ⟨by simpa [storeInv] using hc', hc'⟩
  · intro c s' h
    simp only [ctx_save] at h
    split at h
    · exact absurd h (by simp)
    · simp only [Except.ok.injEq] at h
      subst h
      cases hcur : s.current with
      | none => simp [storeInv, hcur]
      | some x =>
        simp only [storeInv, hcur] at hinv ⊢
        simp [alContains_insert, hinv]
  · intro a b s' h
    simp only [ctx_clone] at h
    split at h
    · exact absurd h (by simp)
    · split at h
      · exact absurd h (by simp)
      · simp only [Except.ok.injEq] at h
        subst h
        cases hcur : s.current with
        | none => simp [storeInv, hcur]
        | some x =>
          simp only [storeInv, hcur] at hinv ⊢
          simp [alContains_insert, hinv]
  · intro a s' h
    simp only [ctx_delete] at h
    split at h
    · exact absurd h (by simp)
    · simp only [Except.ok.injEq] at h
      subst h
      refine ⟨?_, fun hcur => by simp [hcur]⟩
      cases hcur : s.current with
      | none => simp [storeInv, hcur]
      | some x =>
        by_cases hxa : x = a
        · simp [storeInv, hcur, hxa]
        · have hxna : ¬ s.current = some a := by
            rw [hcur]
            simp [hxa]
          simp only [storeInv, hcur] at hinv
          simp [storeInv, hcur, hxa, alContains_remove_ne _ hxa, hinv]
  · intro a b s' h
    simp only [ctx_rename] at h
    split at h
    · next hab =>
      simp only [Except.ok.injEq] at h
      subst h
      exact ⟨hinv, fun hcur => by rw [hcur, hab]⟩
    · next hab =>
      split at h
      · exact absurd h (by simp)
      · next c hg =>
        split at h
        · exact absurd h (by simp)
        · simp only [Except.ok.injEq] at h
          subst h
          by_cases hcur : s.current = some a
          · refine ⟨?_, fun _ => by simp [hcur]⟩
            simp [hcur, storeInv, alContains_insert]
          · refine ⟨?_, fun hc => absurd hc hcur⟩
            simp only [hcur, if_false]
            cases hc : s.current with
            | none => simp [storeInv, hc]
            | some x =>
              have hxa : x ≠ a := fun hh => hcur (by rw [hc, hh])
              simp only [storeInv, hc] at hinv
              simp [storeInv, hc, alContains_insert, alContains_remove_ne _ hxa, hinv]
  · intro a c s' h
    simp only [ctx_update] at h
    split at h
    · exact absurd h (by simp)
    · split at h
      · exact absurd h (by simp)
      · simp only [Except.ok.injEq] at h
        subst h
        by_cases hcur : s.current = some a
        · refine ⟨?_, fun _ => by simp [hcur]⟩
          simp [hcur, storeInv, alContains_insert]
        · refine ⟨?_, fun hc => absurd hc hcur⟩
          simp only [hcur, if_false]
          cases hc : s.current with
          | none => simp [storeInv, hc]
          | some x =>
            have hxa : x ≠ a := fun hh => hcur (by rw [hc, hh])
            simp only [storeInv, hc] at hinv
            simp [storeInv, hc, alContains_insert, alContains_remove_ne _ hxa, hinv]

theorem C10_context_store_invariant_witness :
    storeInv ⟨some "a".toList, [("a".toList, ⟨"a".toList, [], [], [], [], []⟩)]⟩ = true ∧
    (storeInv (⟨none, []⟩ : ContextStore) = true ∧
      ((⟨some "a".toList, [("a".toList, ⟨"a".toList, [], [], [], [], []⟩)]⟩ :
          ContextStore).current = some "a".toList →
        (⟨none, []⟩ : ContextStore).current = none)) :=
  ⟨by decide,
    (C10_context_store_invariant _ (by decide)).2.2.2.1 "a".toList ⟨none, []⟩ (by rfl)⟩

/-- C2: for every application name, separator and relative key that does not
carry the separator as an accidental leading collision, stripping the
prefixed key returns the key unchanged; with an application selected the
prefixed key is exactly `app ++ separator ++ key`. -/
theorem C2_prefix_strip_round_trip (ctx : ActiveKvContext) (key : Str)
    (h : begWith ctx.separator key = false) :
    strip_prefix_key ctx (prefix_key ctx key) = key ∧
    (∀ app, ctx.app_name = some app →
      prefix_key ctx key = app ++ ctx.separator ++ key) := by
  constructor
  · cases happ : ctx.app_name with
    | none => simp [prefix_key, strip_prefix_key, happ]
    | some app =>
      simp only [prefix_key, strip_prefix_key, happ]
      rw [dropPre?_append]
  · intro app ha
    simp [prefix_key, ha]

theorem C2_prefix_strip_round_trip_witness :
    begWith ":".toList "db/host".toList = false ∧
    strip_prefix_key ⟨[], [], ":".toList, some "app1".toList, none, none⟩
      (prefix_key ⟨[], [], ":".toList, some "app1".toList, none, none⟩
        "db/host".toList) = "db/host".toList :=
  ⟨by decide,
    (C2_prefix_strip_round_trip ⟨[], [], ":".toList, some "app1".toList, none, none⟩
      "db/host".toList (by decide)).1⟩

/-- C9: the worker pool of `import_entries` spawns
`min(available_parallelism, batch_size)` workers (never fewer than one, the
available parallelism and the guarded batch size both being at least one),
and any interleaved execution of the workers pops every queued entry from
the shared FIFO queue, in queue order, until the queue is empty. -/
theorem C9_worker_pool (ap total : Nat) (h1 : 1 ≤ ap) (h2 : 1 ≤ total)
    (sched : List Nat) (q : List ImportEntry) (hs : q.length ≤ sched.length) :
    worker_count ap total = min ap total ∧ 1 ≤ worker_count ap total ∧
    (runPops sched q).2 = [] ∧ (runPops sched q).1.map Prod.snd = q := by
  refine ⟨by simp only [worker_count]; omega, by simp only [worker_count]; omega, ?_⟩
  induction sched generalizing q with
  | nil =>
    have : q = [] := by
      cases q with
      | nil => rfl
      | cons e q' => simp at hs
    subst this
    simp [runPops]
  | cons w rest ih =>
    cases q with
    | nil => simp [runPops, runPops_nil]
    | cons e q' =>
      have := ih q' (by simpa using hs)
      simp [runPops, this.1, this.2]

/-- C6: for an entry that decodes to a secret indirection, when the secret
fetch is requested and fails, `resolve_value` returns the reference address
itself with the indirection flag set instead of propagating the error; when
the fetch succeeds it returns the live secret value. -/
theorem C6_resolve_value_fallback (jparse : Str → Option Json)
    (fetch : Str → Except Str Str) (e : KeyValue) (uri : Str)
    (h : keyvault_uri_from_entry jparse e = some uri) :
    (∀ err, fetch uri = .error err → resolve_value jparse fetch e true = (uri, true)) ∧
    (∀ s, fetch uri = .ok s → resolve_value jparse fetch e true = (s, true)) := by
  constructor <;> intro x hx <;> simp [resolve_value, h, hx]

theorem C6_resolve_value_fallback_witness :
    resolve_value (fun _ => none) (fun _ => .error "request failed".toList)
      ⟨"k".toList,
        some "@Microsoft.KeyVault(SecretUri=https://v.vault.azure.net/secrets/n)".toList,
        none⟩ true
      = ("https://v.vault.azure.net/secrets/n".toList, true) :=
  (C6_resolve_value_fallback (fun _ => none) (fun _ => .error "request failed".toList)
      ⟨"k".toList,
        some "@Microsoft.KeyVault(SecretUri=https://v.vault.azure.net/secrets/n)".toList,
        none⟩ "https://v.vault.azure.net/secrets/n".toList (by rfl)).1
    "request failed".toList (by rfl)

/-- C5 (amended): when the target key already exists as a secret
indirection, the worker updates the underlying vault secret in place (no
store write at all) regardless of the entry's declared kind; when the
target exists as a plain entry, the worker performs a direct value write
regardless of the declared kind; only when the target does not exist does
the write follow the declared kind (`Plain` → direct value write,
`SecretIndirection` → `build_reference` then a write as an indirection). -/
theorem C5_import_write_policy (camel : Str → Str) (jparse : Str → Option Json)
    (r : Remote) (ctx : ActiveKvContext) (e : ImportEntry) :
    (∀ ex u, r.show_entry (prefix_key ctx e.key) = some ex →
      keyvault_uri_from_entry jparse ex = some u →
      process_import_entry camel jparse r ctx e = set_secret_value r u e.value ∧
      ∀ act ∈ (process_import_entry camel jparse r ctx e).2,
        ∃ vault name, act = .secretSet vault name e.value) ∧
    (∀ ex, r.show_entry (prefix_key ctx e.key) = some ex →
      keyvault_uri_from_entry jparse ex = none →
      process_import_entry camel jparse r ctx e =
        (r.entryWriteOk (prefix_key ctx e.key) e.value,
          [.entryWrite (prefix_key ctx e.key) e.value])) ∧
    (r.show_entry (prefix_key ctx e.key) = none → e.value_type = .plain →
      process_import_entry camel jparse r ctx e =
        (r.entryWriteOk (prefix_key ctx e.key) e.value,
          [.entryWrite (prefix_key ctx e.key) e.value])) ∧
    (∀ uri tr, r.show_entry (prefix_key ctx e.key) = none →
      e.value_type = .keyVault →
      build_keyvault_reference camel r ctx (prefix_key ctx e.key) e.value =
        (some uri, tr) →
      process_import_entry camel jparse r ctx e =
        (r.keyvaultWriteOk (prefix_key ctx e.key) uri,
          tr ++ [.keyvaultWrite (prefix_key ctx e.key) uri])) := by
  refine ⟨?_, ?_, ?_, ?_⟩
  · intro ex u hshow hdec
    have hmain : process_import_entry camel jparse r ctx e = set_secret_value r u e.value := by
      simp [process_import_entry, hshow, hdec]
    refine ⟨hmain, ?_⟩
    rw [hmain]
    simp only [set_secret_value]
    cases hp : parse_secret_uri u with
    | none => simp
    | some vn =>
      intro act hact
      simp only [List.mem_singleton] at hact
      exact ⟨vn.1, vn.2, hact⟩
  · intro ex hshow hdec
    simp [process_import_entry, hshow, hdec]
  · intro hshow hkind
    simp [process_import_entry, hshow, hkind]
  · intro uri tr hshow hkind hbuild
    simp [process_import_entry, hshow, hkind, hbuild]

theorem C5_import_write_policy_witness :
    process_import_entry (fun s => s) (fun _ => none)
      ⟨fun _ => some ⟨"app1:k".toList,
          some "@Microsoft.KeyVault(SecretUri=https://v.vault.azure.net/secrets/n)".toList,
          none⟩,
        fun _ _ _ => true, fun _ _ => true, fun _ _ => true⟩
      ⟨"cfg".toList, "ep".toList, ":".toList, some "app1".toList, none,
        some "vaultx".toList⟩
      ⟨"k".toList, "newvalue".toList, .plain⟩
      = (true, [.secretSet "v".toList "n".toList "newvalue".toList]) := by
  have h := (C5_import_write_policy (fun s => s) (fun _ => none)
    ⟨fun _ => some ⟨"app1:k".toList,
        some "@Microsoft.KeyVault(SecretUri=https://v.vault.azure.net/secrets/n)".toList,
        none⟩,
      fun _ _ _ => true, fun _ _ => true, fun _ _ => true⟩
    ⟨"cfg".toList, "ep".toList, ":".toList, some "app1".toList, none,
      some "vaultx".toList⟩
    ⟨"k".toList, "newvalue".toList, .plain⟩).1
    ⟨"app1:k".toList,
      some "@Microsoft.KeyVault(SecretUri=https://v.vault.azure.net/secrets/n)".toList,
      none⟩
    "https://v.vault.azure.net/secrets/n".toList (by rfl) (by rfl)
  rw [h.1]
  rfl

/-- C5 counterexample: the target key exists in the store as a *plain*
entry and the import entry's declared kind is `SecretIndirection`
(keyvault, with a vault configured); the worker performs a direct plain
value write — no `build_reference`, no secret creation, no indirection
write — contradicting "otherwise the write follows the entry's declared
kind". -/
theorem C5_counterexample :
    process_import_entry (fun s => s) (fun _ => none)
      ⟨fun _ => some ⟨"app1:k".toList, some "oldplain".toList, none⟩,
        fun _ _ _ => true, fun _ _ => true, fun _ _ => true⟩
      ⟨"cfg".toList, "ep".toList, ":".toList, some "app1".toList, none,
        some "vaultx".toList⟩
      ⟨"k".toList, "v".toList, .keyVault⟩
      = (true, [.entryWrite "app1:k".toList "v".toList]) ∧
    ((process_import_entry (fun s => s) (fun _ => none)
      ⟨fun _ => some ⟨"app1:k".toList, some "oldplain".toList, none⟩,
        fun _ _ _ => true, fun _ _ => true, fun _ _ => true⟩
      ⟨"cfg".toList, "ep".toList, ":".toList, some "app1".toList, none,
        some "vaultx".toList⟩
      ⟨"k".toList, "v".toList, .keyVault⟩).2.all fun a =>
        match a with
        | .entryWrite _ _ => true
        | _ => false) = true :=
  ⟨by rfl, by rfl⟩

/-- C7: for a configured vault base and full key, the secret address
returned by `build_reference` equals `normalized_base ++ "/secrets/" ++
name`, where `name` is the external camel-case fold of the key with every
non-alphanumeric character turned into a word boundary, and the normalized
base is `https://{vault}.vault.azure.net` for a bare vault name, or the
address with any trailing slash trimmed when it already carries a scheme. -/
theorem C7_build_reference (camel : Str → Str) (r : Remote) (ctx : ActiveKvContext)
    (fk sv vb : Str) (hkv : ctx.keyvault = some vb) (hvb : noEdgeWs vb = true)
    (hne : vb ≠ []) :
    (headNot (fun d => d = '/') vb.reverse = true →
      begWith "http://".toList vb = false → begWith "https://".toList vb = false →
      ensure_vault_base ctx.keyvault =
        some ("https://".toList ++ vb ++ ".vault.azure.net".toList)) ∧
    ((begWith "http://".toList vb || begWith "https://".toList vb) = true →
      ensure_vault_base ctx.keyvault = some (trimEndCh '/' vb)) ∧
    (∀ base, ensure_vault_base ctx.keyvault = some base →
      r.secretSetOk (vault_name_of_base base) (secret_name_from_key camel fk) sv = true →
      (build_keyvault_reference camel r ctx fk sv).1 =
        some (base ++ "/secrets/".toList ++ secret_name_from_key camel fk)) ∧
    (secret_name_from_key camel fk = camel (sanitize_key fk) ∧
      ∀ i : Nat, (sanitize_key fk)[i]? =
        (fk[i]?).map (fun c => if c.isAlphanum then c else ' ')) := by
  refine ⟨?_, ?_, ?_, rfl, ?_⟩
  · intro hslash h1 h2
    simp only [ensure_vault_base, hkv, trimWs_eq_self hvb, if_neg hne, h1, h2,
      Bool.or_self, Bool.false_eq_true, if_false, trimEndCh_eq_self hslash]
  · intro hsch
    simp only [ensure_vault_base, hkv, trimWs_eq_self hvb, if_neg hne, hsch, if_true]
  · intro base hbase hok
    simp only [build_keyvault_reference, hbase, hok, if_true]
  · intro i
    simp [sanitize_key]

theorem C7_build_reference_witness :
    (build_keyvault_reference (fun s => s)
      ⟨fun _ => none, fun _ _ _ => true, fun _ _ => true, fun _ _ => true⟩
      ⟨"cfg".toList, "ep".toList, ":".toList, none, none, some "myv".toList⟩
      "app1:db/host".toList "s".toList).1 =
      some ("https://myv.vault.azure.net".toList ++ "/secrets/".toList ++
        secret_name_from_key (fun s => s) "app1:db/host".toList) :=
  (C7_build_reference (fun s => s)
      ⟨fun _ => none, fun _ _ _ => true, fun _ _ => true, fun _ _ => true⟩
      ⟨"cfg".toList, "ep".toList, ":".toList, none, none, some "myv".toList⟩
      "app1:db/host".toList "s".toList "myv".toList (by rfl) (by decide)
      (by decide)).2.2.1
    "https://myv.vault.azure.net".toList (by rfl) (by rfl)

/-- C8 (amended): a value is emitted unquoted exactly when it is non-empty
and every character is an ASCII letter, digit, or one of `_ . - / :`; any
other value is wrapped in double quotes with backslash, double quote,
newline, carriage return and tab escaped via backslash escapes, while every
other character — including other control characters — is emitted
unchanged inside the quotes. -/
theorem C8_env_quoting (v : Str) :
    ((v ≠ [] ∧ ∀ c ∈ v, (('a' ≤ c ∧ c ≤ 'z') ∨ ('A' ≤ c ∧ c ≤ 'Z') ∨
        ('0' ≤ c ∧ c ≤ '9') ∨ c = '_' ∨ c = '.' ∨ c = '-' ∨ c = '/' ∨ c = ':')) →
      needs_env_quotes v = false ∧ encode_env_value v = v) ∧
    ((v = [] ∨ ∃ c ∈ v, ¬ (('a' ≤ c ∧ c ≤ 'z') ∨ ('A' ≤ c ∧ c ≤ 'Z') ∨
        ('0' ≤ c ∧ c ≤ '9') ∨ c = '_' ∨ c = '.' ∨ c = '-' ∨ c = '/' ∨ c = ':')) →
      needs_env_quotes v = true ∧
      encode_env_value v = '"' :: (escape_double_quoted v ++ ['"'])) ∧
    (∀ a b, escape_double_quoted (a ++ b) =
      escape_double_quoted a ++ escape_double_quoted b) ∧
    (∀ c, escape_double_quoted [c] =
      if c = '\n' then "\\n".toList
      else if c = '\r' then "\\r".toList
      else if c = '\t' then "\\t".toList
      else if c = '\\' then "\\\\".toList
      else if c = '"' then "\\\"".toList
      else [c]) := by
  refine ⟨?_, ?_, ?_, ?_⟩
  · intro hv
    have hq : needs_env_quotes v = false := by
      simp only [needs_env_quotes, if_neg hv.1]
      rw [decide_eq_false_iff_not]
      refine not_not_intro ?_
      simp only [List.all_eq_true, decide_eq_true_eq]
      exact hv.2
    exact ⟨hq, by simp [encode_env_value, hq]⟩
  · intro hv
    have hq : needs_env_quotes v = true := by
      rcases hv with hv | ⟨c, hc, hcp⟩
      · simp [needs_env_quotes, hv]
      · have hvne : v ≠ [] := fun hh => by simp [hh] at hc
        simp only [needs_env_quotes, if_neg hvne]
        rw [decide_eq_true_eq]
        intro hall
        exact hcp (by simpa using (List.all_eq_true.mp hall) c hc)
    exact ⟨hq, by simp [encode_env_value, hq]⟩
  · intro a b
    simp [escape_double_quoted]
  · intro c
    simp [escape_double_quoted, escCh]

theorem C8_env_quoting_witness :
    needs_env_quotes "a b".toList = true ∧
    encode_env_value "a b".toList = '"' :: (escape_double_quoted "a b".toList ++ ['"']) :=
  (C8_env_quoting "a b".toList).2.1 (Or.inr ⟨' ', by decide, by decide⟩)

/-- C8 counterexample: the vertical-tab control character `\x0B` forces
quoting but is emitted raw inside the quotes, with no backslash escape at
all — the claim's "control characters escaped via backslash escapes" fails
for it. -/
theorem C8_counterexample :
    needs_env_quotes [Char.ofNat 11] = true ∧
    (Char.ofNat 11).toNat < 32 ∧
    encode_env_value [Char.ofNat 11] = ['"', Char.ofNat 11, '"'] ∧
    hasCh '\\' (encode_env_value [Char.ofNat 11]) = false :=
  ⟨by decide, by decide, by rfl, by decide⟩

theorem C9_worker_pool_witness :
    worker_count 4 3 = min 4 3 ∧ 1 ≤ worker_count 4 3 ∧
    (runPops [0, 1, 0] [⟨"a".toList, "1".toList, .plain⟩,
      ⟨"b".toList, "2".toList, .plain⟩, ⟨"c".toList, "3".toList, .plain⟩]).2 = [] ∧
    (runPops [0, 1, 0] [⟨"a".toList, "1".toList, .plain⟩,
      ⟨"b".toList, "2".toList, .plain⟩, ⟨"c".toList, "3".toList, .plain⟩]).1.map
        Prod.snd = [⟨"a".toList, "1".toList, .plain⟩,
      ⟨"b".toList, "2".toList, .plain⟩, ⟨"c".toList, "3".toList, .plain⟩] :=
  C9_worker_pool 4 3 (by decide) (by decide) [0, 1, 0] _ (by decide)

end Azac
